import Mathlib

/-!
# Verification of the moderation-queue distributor (server.js)

Shallow embedding of the in-memory work-distribution core of `server.js`:
the pending-item registry (`inMemoryPending`), the least-loaded assignment
pass (`distributeNewItems`), the WebSocket admin session lifecycle, the
approve/deny resolution handlers and the blob-existence poll
(`waitForBlobExistence`).

The source file contains two concatenated iterations of the server; their
registry/distribution semantics coincide, and where their WebSocket message
handling differs both variants are embedded (`handleMessageV1`,
`handleMessageV2`).
-/

namespace SMCDublin

/-- One entry of `inMemoryPending`:
`{ blobName, lockedBy: string|null, lockedAt: number|null }`. -/
structure PendingItem where
  blobName : String
  lockedBy : Option String
  lockedAt : Option Nat
  deriving Repr, DecidableEq

/-- JavaScript truthiness of the `lockedBy` field as used in
`if (!item.lockedBy)` and `if (item.lockedBy)`: `null` and the empty
string are falsy, every other string is truthy. -/
def ownerFalsy : Option String → Bool
  | none => true
  | some s => s = ""

/-- The number of registry items whose `lockedBy` is exactly `a`. -/
def countOwned (pending : List PendingItem) (a : String) : Nat :=
  (pending.filter fun i => i.lockedBy = some a).length

/-- `rebuildAdminLoadCounts` followed by reading `adminLoadMap[a] || 0`:
the load of admin `a` is the number of in-memory items with
`item.lockedBy === a` (items are counted only when `item.lockedBy` is
truthy — so nothing is ever tallied under the key `""` — and a missing
key reads as 0). -/
def computeLoads (pending : List PendingItem) : String → Nat :=
  fun a => if a = "" then 0 else countOwned pending a

/-- The inner scan of `distributeNewItems`:
`targetAdmin = null; minLoad = Infinity; for (adminId of admins) if (load < minLoad) ...`.
Given the running best admin and its load, fold over the remaining admins,
replacing the best only on a strict decrease (so ties keep the earlier
admin). -/
def pickFrom (best : String) (bestLoad : Nat) :
    List String → (String → Nat) → String
  | [], _ => best
  | a :: rest, loads =>
    if loads a < bestLoad then pickFrom a (loads a) rest loads
    else pickFrom best bestLoad rest loads

/-- The full scan: `none` when no admins are connected (the loop leaves
`targetAdmin = null`), otherwise the first admin attaining the minimum
load (the first admin always beats `Infinity`). -/
def pickTarget (admins : List String) (loads : String → Nat) : Option String :=
  match admins with
  | [] => none
  | a :: rest => some (pickFrom a (loads a) rest loads)

/-- The body of the `for (const item of inMemoryPending)` loop for a single
item: claimed items (`item.lockedBy` truthy) are skipped; an unclaimed item
is assigned to the picked admin provided `targetAdmin` is truthy
(`if (targetAdmin)`), bumping that admin's load. -/
def distributeItem (admins : List String) (now : Nat)
    (loads : String → Nat) (item : PendingItem) :
    PendingItem × (String → Nat) :=
  if ownerFalsy item.lockedBy then
    match pickTarget admins loads with
    | none => (item, loads)
    | some t =>
      if t = "" then (item, loads)
      else
        ({ item with lockedBy := some t, lockedAt := some now },
         fun a => if a = t then loads a + 1 else loads a)
  else (item, loads)

/-- The `for (const item of inMemoryPending)` loop: items are processed in
list (FIFO intake) order, threading the updated loads. Returns the updated
registry together with the final load map. -/
def distributeList (admins : List String) (now : Nat) :
    List PendingItem → (String → Nat) →
    List PendingItem × (String → Nat)
  | [], loads => ([], loads)
  | item :: rest, loads =>
    let p := distributeItem admins now loads item
    let q := distributeList admins now rest p.2
    (p.1 :: q.1, q.2)

/-- `distributeNewItems()`: early return when no admins are connected,
otherwise rebuild the load counts and run the assignment loop.
`admins` is `getAllConnectedAdminIds()`, the values of `adminClientsMap`
in insertion (registration) order; `now` stands for `Date.now()`. -/
def distributeNewItems (admins : List String) (now : Nat)
    (pending : List PendingItem) : List PendingItem :=
  match admins with
  | [] => pending
  | _ :: _ => (distributeList admins now pending (computeLoads pending)).1

/-! ## Server state and the WebSocket lifecycle -/

/-- The unlock loop of the `close` handler:
`inMemoryPending.forEach(item => { if (item.lockedBy === adminId) { item.lockedBy = null; item.lockedAt = null; } })`. -/
def releaseOwnedBy (adminId : String) (pending : List PendingItem) :
    List PendingItem :=
  pending.map fun item =>
    if item.lockedBy = some adminId then
      { item with lockedBy := none, lockedAt := none }
    else item

/-- The removal performed by both resolution handlers:
`inMemoryPending = inMemoryPending.filter(item => item.blobName !== filename)`. -/
def removePending (pending : List PendingItem) (filename : String) :
    List PendingItem :=
  pending.filter fun item => item.blobName ≠ filename

/-- The shared mutable server state the distribution core touches:
`inMemoryPending`, the values of `adminClientsMap` in insertion order,
and the set of registered non-admin clients (`clients`), with connections
named by numbers. -/
structure ServerState where
  pending : List PendingItem
  adminIds : List String
  viewers : List Nat
  deriving Repr, DecidableEq

/-- Submission intake (`/upload` handler tail): push
`{ blobName, lockedBy: null, lockedAt: null }` onto `inMemoryPending`,
then `distributeNewItems()`. -/
def intakeStep (blobName : String) (now : Nat) (s : ServerState) :
    ServerState :=
  { s with
    pending :=
      distributeNewItems s.adminIds now
        (s.pending ++ [⟨blobName, none, none⟩]) }

/-- Admin identification (`data.type === 'admin'`): register the generated
id in `adminClientsMap` (insertion order append), then
`distributeNewItems()`. -/
def connectStep (adminId : String) (now : Nat) (s : ServerState) :
    ServerState :=
  { s with
    adminIds := s.adminIds ++ [adminId],
    pending := distributeNewItems (s.adminIds ++ [adminId]) now s.pending }

/-- Close of an identified admin connection: delete the map entry, release
that admin's items, then `distributeNewItems()` over the remaining admins. -/
def disconnectStep (adminId : String) (now : Nat) (s : ServerState) :
    ServerState :=
  { s with
    adminIds := s.adminIds.erase adminId,
    pending :=
      distributeNewItems (s.adminIds.erase adminId) now
        (releaseOwnedBy adminId s.pending) }

/-- Successful approve/deny resolution: filter the item out of
`inMemoryPending` (blob-side effects are external). -/
def resolveStep (filename : String) (s : ServerState) : ServerState :=
  { s with pending := removePending s.pending filename }

/-- A standalone balancing pass over the current state (as triggered by
`syncExistingPending` at startup). -/
def rebalanceStep (now : Nat) (s : ServerState) : ServerState :=
  { s with pending := distributeNewItems s.adminIds now s.pending }

/-- One event of the distribution core. -/
inductive Step : ServerState → ServerState → Prop
  | intake (blobName : String) (now : Nat) (s : ServerState) :
      Step s (intakeStep blobName now s)
  | connect (adminId : String) (now : Nat) (s : ServerState) :
      Step s (connectStep adminId now s)
  | disconnect (adminId : String) (now : Nat) (s : ServerState) :
      Step s (disconnectStep adminId now s)
  | resolve (filename : String) (s : ServerState) :
      Step s (resolveStep filename s)
  | rebalance (now : Nat) (s : ServerState) :
      Step s (rebalanceStep now s)

/-- The state at process start: empty registry, no sessions. -/
def initState : ServerState := ⟨[], [], []⟩

/-- States reachable from `initState` by intake, moderator identification,
moderator disconnect, rebalance and resolution events. -/
inductive Reachable : ServerState → Prop
  | init : Reachable initState
  | step {s t : ServerState} : Reachable s → Step s t → Reachable t

/-! ## The blob-existence poll and the resolution handlers -/

/-- `const maxAttempts = 30` in `waitForBlobExistence`. -/
def maxAttempts : Nat := 30

/-- `const interval = 1000` (milliseconds) in `waitForBlobExistence`. -/
def interval : Nat := 1000

/-- The `while (!exists && attempts < maxAttempts)` loop. `visible n` is
the result of the existence check on attempt number `n`; `attempts` is the
count of attempts already made and `fuel = maxAttempts - attempts` the
number still allowed. Returns the attempt number on which the blob was
found, or `none` when all attempts are used up (the code then throws). -/
def waitAux (visible : Nat → Bool) : Nat → Nat → Option Nat
  | _, 0 => none
  | attempts, fuel + 1 =>
    if visible (attempts + 1) then some (attempts + 1)
    else waitAux visible (attempts + 1) fuel

/-- `waitForBlobExistence`: poll up to `maxAttempts` times, `interval`
milliseconds apart; `none` models the thrown
`copy did not complete in time` error. -/
def waitForBlobExistence (visible : Nat → Bool) : Option Nat :=
  waitAux visible 0 maxAttempts

/-- JS `path.basename` for the forward-slash paths this server builds:
the last non-empty path component. -/
def basename (p : String) : String :=
  ((p.splitOn "/").filter (fun c => c ≠ "")).getLastD ""

/-- `path.parse(filename).name`: the file name with its last extension
removed (a lone leading dot, as in `.txt`, is not an extension). -/
def stripExt (f : String) : String :=
  match f.revPosOf '.' with
  | none => f
  | some p => if p.byteIdx = 0 then f else f.extract 0 p

/-- The HTTP response of a resolution handler. -/
inductive HttpResult where
  | ok (msg : String)
  | badRequest (msg : String)
  | serverError (msg : String)
  deriving Repr, DecidableEq

/-- The storage-side environment of one `/admin/approve-image` request:
the two source-existence checks and the two copy existence-polls. -/
structure ApproveEnv where
  imageExists : Bool
  imageCopyVisible : Nat → Bool
  textExists : Bool
  textCopyVisible : Nat → Bool

/-- The `/admin/approve-image` handler. Control flow of the source: missing
`imagePath` is a 400; a missing source blob or an exhausted existence-poll
throws, landing in the catch branch which answers 500 and touches no
in-memory state; only after both copies are visible does the handler delete
the sources and filter `inMemoryPending`. Returns the HTTP response
together with the registry afterwards. -/
def approveImage (env : ApproveEnv) (pending : List PendingItem)
    (imagePath : Option String) : HttpResult × List PendingItem :=
  match imagePath with
  | none => (.badRequest "No image specified.", pending)
  | some p =>
    if p = "" then (.badRequest "No image specified.", pending)
    else
      let filename := basename p
      if !env.imageExists then
        (.serverError "Error approving image: image not found in pending.",
         pending)
      else
        match waitForBlobExistence env.imageCopyVisible with
        | none =>
          (.serverError "Error approving image: Image copy did not complete in time.",
           pending)
        | some _ =>
          if !env.textExists then
            (.serverError "Error approving image: text file not found in pending.",
             pending)
          else
            match waitForBlobExistence env.textCopyVisible with
            | none =>
              (.serverError "Error approving image: Text file copy did not complete in time.",
               pending)
            | some _ =>
              (.ok "Image approved successfully.",
               removePending pending filename)

/-- The `/admin/deny-image` handler: missing `imagePath` is a 400;
otherwise delete the two pending blobs (`deleteIfExists`, never failing on
absence) and filter `inMemoryPending`. -/
def denyImage (pending : List PendingItem) (imagePath : Option String) :
    HttpResult × List PendingItem :=
  match imagePath with
  | none => (.badRequest "No image specified.", pending)
  | some p =>
    if p = "" then (.badRequest "No image specified.", pending)
    else
      (.ok "Image and associated text denied and removed.",
       removePending pending (basename p))

/-! ## The WebSocket message handlers (both source variants) -/

/-- An inbound WebSocket message after `JSON.parse`: its `type` field, or
`malformed` when parsing threw. -/
inductive InboundMsg where
  | admin
  | ping
  | client
  | other (t : String)
  | malformed
  deriving Repr, DecidableEq

/-- A message sent back to the triggering connection. The constructor name
records the literal `type` tag of the JSON the source sends;
`pendingImages` and `images` payloads carry no `type` field. -/
inductive OutboundMsg where
  | initAdminId (adminId : String)
  | pong
  | pendingImages (items : List (String × Option String))
  | images (urls : List String)
  deriving Repr, DecidableEq

/-- The `type` field of the stringified JSON for each outbound message. -/
def msgTypeField : OutboundMsg → Option String
  | .initAdminId _ => some "initAdminId"
  | .pong => some "pong"
  | .pendingImages _ => none
  | .images _ => none

/-- `sendPendingImages(ws)`: the items of `inMemoryPending` locked by this
connection's admin id, as `(blobName, lockedBy)` pairs (the source maps
`blobName` to its public URL; the URL prefix is configuration). An
unidentified connection gets an empty list. -/
def sendPendingImagesPayload (adminId : Option String)
    (pending : List PendingItem) : OutboundMsg :=
  match adminId with
  | none => .pendingImages []
  | some id =>
    .pendingImages
      ((pending.filter fun i => i.lockedBy = some id).map
        fun i => (i.blobName, i.lockedBy))

/-- `clients.add(ws)`: adding to a `Set` is a no-op when already present. -/
def addViewer (c : Nat) (vs : List Nat) : List Nat :=
  if c ∈ vs then vs else vs ++ [c]

/-- First source variant of the `message` handler (the one that replies
with `initAdminId`). `c` names the connection, `adminId` the id the admin
branch would generate, `approvedImages` the listing of the public images
container. `type:'admin'` registers the session, immediately sends
`{type:'initAdminId', adminId}`, runs `distributeNewItems()` and then
sends this admin its locked items; `ping` gets `pong`; every other parsed
message falls to the else branch, which registers the sender as a regular
client and sends it the public images; a JSON parse error is caught and
logged only. Returns the new state and the messages sent to `c`, in
order. -/
def handleMessageV1 (c : Nat) (adminId : String) (now : Nat)
    (approvedImages : List String) (msg : InboundMsg) (s : ServerState) :
    ServerState × List OutboundMsg :=
  match msg with
  | .admin =>
    let s' := connectStep adminId now s
    (s', [.initAdminId adminId,
          sendPendingImagesPayload (some adminId) s'.pending])
  | .ping => (s, [.pong])
  | .malformed => (s, [])
  | _ =>
    ({ s with viewers := addViewer c s.viewers }, [.images approvedImages])

/-- Second source variant of the `message` handler. `type:'admin'`
registers, redistributes and pushes the locked items (no id message is
sent to the client in this variant); `type:'client'` registers a viewer;
`ping` gets `pong`; an unknown `type` only hits `console.warn`; a parse
error is caught and logged. Messages this handler causes to be sent to
other admin connections (inside this variant's `distributeNewItems`) are
not part of the returned list, which is the traffic to `c` alone. -/
def handleMessageV2 (c : Nat) (adminId : String) (now : Nat)
    (approvedImages : List String) (msg : InboundMsg) (s : ServerState) :
    ServerState × List OutboundMsg :=
  match msg with
  | .admin =>
    let s' := connectStep adminId now s
    (s', [sendPendingImagesPayload (some adminId) s'.pending])
  | .client =>
    ({ s with viewers := addViewer c s.viewers }, [.images approvedImages])
  | .ping => (s, [.pong])
  | .other _ => (s, [])
  | .malformed => (s, [])

/-! ## Spec-side rebalance (for the refinement claim)

The following definitions transcribe the specification's §4.2 wording of
the balancing pass, to be compared with `distributeNewItems` above. -/

/-- Spec wording: "pick the moderator with the minimum current `load`;
ties broken by earliest-registered moderator id" — the first moderator of
the registration-ordered list whose load is a minimum over all connected
moderators. -/
def specPickMod (admins : List String) (loads : String → Nat) :
    Option String :=
  admins.find? fun m => admins.all fun b => decide (loads m ≤ loads b)

/-- Spec wording: "For each unclaimed item, in FIFO order … Assign the
item to that moderator (`ownerId := m`, `assignedAt := now`), increment
`load[m]` by 1, continue to the next item using the updated loads".
Unclaimed means `ownerId = none`; claimed items are untouched. -/
def specAssignList (admins : List String) (now : Nat) :
    List PendingItem → (String → Nat) → List PendingItem
  | [], _ => []
  | item :: rest, loads =>
    if item.lockedBy = none then
      match specPickMod admins loads with
      | some m =>
        { item with lockedBy := some m, lockedAt := some now } ::
          specAssignList admins now rest
            (fun a => if a = m then loads a + 1 else loads a)
      | none => item :: specAssignList admins now rest loads
    else item :: specAssignList admins now rest loads

/-- Spec wording of `rebalance(registry, connectedModeratorIds)`: return
immediately when no moderator is connected; otherwise compute
`load[m]` = count of items owned by `m` and assign every unclaimed item
in FIFO order. -/
def specRebalance (admins : List String) (now : Nat)
    (pending : List PendingItem) : List PendingItem :=
  match admins with
  | [] => pending
  | _ :: _ => specAssignList admins now pending (countOwned pending)

/-! ## Auxiliary predicates -/

/-- Loads that differ pairwise by at most one among the connected admins. -/
def Balanced (admins : List String) (loads : String → Nat) : Prop :=
  ∀ a ∈ admins, ∀ b ∈ admins, loads a ≤ loads b + 1

/-- Every owned item names a currently-connected admin session. -/
def OwnersConnected (s : ServerState) : Prop :=
  ∀ i ∈ s.pending, ∀ m, i.lockedBy = some m → m ∈ s.adminIds

/-! ## Lemmas: the least-loaded scan -/

theorem pickFrom_mem (loads : String → Nat) (rest : List String) :
    ∀ best bestLoad, pickFrom best bestLoad rest loads ∈ best :: rest := by
  induction rest with
  | nil => intro best bestLoad; simp [pickFrom]
  | cons a rest ih =>
    intro best bestLoad
    by_cases h : loads a < bestLoad
    · rw [pickFrom, if_pos h]
      exact List.mem_cons_of_mem _ (ih a (loads a))
    · rw [pickFrom, if_neg h]
      rcases List.mem_cons.mp (ih best bestLoad) with h3 | h3
      · rw [h3]
        exact List.mem_cons_self _ _
      · exact List.mem_cons_of_mem _ (List.mem_cons_of_mem _ h3)

theorem pickFrom_le (loads : String → Nat) (rest : List String) :
    ∀ best bestLoad, loads best ≤ bestLoad →
      loads (pickFrom best bestLoad rest loads) ≤ bestLoad := by
  induction rest with
  | nil => intro best bestLoad hb; simpa [pickFrom] using hb
  | cons a rest ih =>
    intro best bestLoad hb
    by_cases h : loads a < bestLoad
    · rw [pickFrom, if_pos h]
      exact le_trans (ih a (loads a) le_rfl) (le_of_lt h)
    · rw [pickFrom, if_neg h]
      exact ih best bestLoad hb

/-- The scan result splits its input: everything scanned before the winner
had strictly larger load (strict `<` keeps the earlier of tied admins),
everything after has at least the winner's load. -/
theorem pickFrom_split (loads : String → Nat) (rest : List String) :
    ∀ best, ∃ pre post,
      best :: rest = pre ++ pickFrom best (loads best) rest loads :: post ∧
      (∀ b ∈ pre, loads (pickFrom best (loads best) rest loads) < loads b) ∧
      (∀ b ∈ post, loads (pickFrom best (loads best) rest loads) ≤ loads b) := by
  induction rest with
  | nil =>
    intro best
    exact ⟨[], [], by simp [pickFrom], by simp, by simp⟩
  | cons a rest ih =>
    intro best
    by_cases h : loads a < loads best
    · have hrw : pickFrom best (loads best) (a :: rest) loads =
          pickFrom a (loads a) rest loads := by rw [pickFrom, if_pos h]
      obtain ⟨pre, post, heq, hpre, hpost⟩ := ih a
      refine ⟨best :: pre, post, ?_, ?_, by rw [hrw]; exact hpost⟩
      · rw [hrw, List.cons_append, ← heq]
      · intro b hb
        rw [hrw]
        rcases List.mem_cons.mp hb with rfl | hb'
        · exact lt_of_le_of_lt (pickFrom_le loads rest a (loads a) le_rfl) h
        · exact hpre b hb'
    · have hb2 : loads best ≤ loads a := le_of_not_lt h
      have hrw : pickFrom best (loads best) (a :: rest) loads =
          pickFrom best (loads best) rest loads := by rw [pickFrom, if_neg h]
      obtain ⟨pre, post, heq, hpre, hpost⟩ := ih best
      cases pre with
      | nil =>
        simp only [List.nil_append] at heq
        have h1 : best = pickFrom best (loads best) rest loads :=
          (List.cons.injEq _ _ _ _ ▸ heq).1
        have h2 : rest = post := (List.cons.injEq _ _ _ _ ▸ heq).2
        refine ⟨[], a :: rest, ?_, by simp, ?_⟩
        · rw [hrw, List.nil_append, ← h1]
        · intro b hb
          rw [hrw, ← h1]
          rcases List.mem_cons.mp hb with rfl | hb'
          · exact hb2
          · have hp := hpost b (h2 ▸ hb')
            rwa [← h1] at hp
      | cons x pre' =>
        simp only [List.cons_append] at heq
        have h1 : best = x := (List.cons.injEq _ _ _ _ ▸ heq).1
        have h2 : rest = pre' ++ pickFrom best (loads best) rest loads :: post :=
          (List.cons.injEq _ _ _ _ ▸ heq).2
        refine ⟨best :: a :: pre', post, ?_, ?_, by rw [hrw]; exact hpost⟩
        · rw [hrw]
          simp only [List.cons_append]
          rw [← h2]
        · intro b hb
          rw [hrw]
          have hx : loads (pickFrom best (loads best) rest loads) < loads best := by
            have := hpre x (List.mem_cons_self _ _)
            rwa [← h1] at this
          rcases List.mem_cons.mp hb with rfl | hb'
          · exact hx
          · rcases List.mem_cons.mp hb' with rfl | hb''
            · exact lt_of_lt_of_le hx hb2
            · exact hpre b (List.mem_cons_of_mem _ hb'')

/-- Generic split form of a successful `find?`. -/
theorem find?_split {α : Type} (P : α → Bool) :
    ∀ (l : List α) t, l.find? P = some t →
      ∃ pre post, l = pre ++ t :: post ∧ (∀ b ∈ pre, P b = false) ∧
        P t = true := by
  intro l
  induction l with
  | nil => intro t h; simp [List.find?] at h
  | cons a l ih =>
    intro t h
    by_cases hp : P a
    · rw [List.find?_cons_of_pos _ hp] at h
      injection h with h
      subst h
      exact ⟨[], l, by simp, by simp, hp⟩
    · rw [List.find?_cons_of_neg _ (by simpa using hp)] at h
      obtain ⟨pre, post, heq, hpre, ht⟩ := ih t h
      refine ⟨a :: pre, post, by simp [heq], ?_, ht⟩
      intro b hb
      rcases List.mem_cons.mp hb with rfl | hb'
      · simpa using hp
      · exact hpre b hb'

/-- Two elements that each split the same list with the
strictly-larger-before / at-least-after property coincide. -/
theorem split_unique (loads : String → Nat) :
    ∀ (pre₁ pre₂ post₁ post₂ : List String) (t₁ t₂ : String),
      pre₁ ++ t₁ :: post₁ = pre₂ ++ t₂ :: post₂ →
      (∀ b ∈ pre₁, loads t₁ < loads b) → (∀ b ∈ post₁, loads t₁ ≤ loads b) →
      (∀ b ∈ pre₂, loads t₂ < loads b) → (∀ b ∈ post₂, loads t₂ ≤ loads b) →
      t₁ = t₂ := by
  intro pre₁
  induction pre₁ with
  | nil =>
    intro pre₂ post₁ post₂ t₁ t₂ heq hpre₁ hpost₁ hpre₂ hpost₂
    cases pre₂ with
    | nil =>
      simp only [List.nil_append] at heq
      exact (List.cons.injEq _ _ _ _ ▸ heq).1
    | cons c pre₂' =>
      simp only [List.nil_append, List.cons_append] at heq
      have hc : t₁ = c := (List.cons.injEq _ _ _ _ ▸ heq).1
      have hrest : post₁ = pre₂' ++ t₂ :: post₂ :=
        (List.cons.injEq _ _ _ _ ▸ heq).2
      have h1 : loads t₁ ≤ loads t₂ := by
        refine hpost₁ t₂ ?_
        rw [hrest]
        exact List.mem_append_right _ (List.mem_cons_self _ _)
      have h2 : loads t₂ < loads t₁ := by
        refine hpre₂ t₁ ?_
        rw [hc]
        exact List.mem_cons_self _ _
      exact absurd h1 (not_le.mpr h2)
  | cons c pre₁' ih =>
    intro pre₂ post₁ post₂ t₁ t₂ heq hpre₁ hpost₁ hpre₂ hpost₂
    cases pre₂ with
    | nil =>
      simp only [List.cons_append, List.nil_append] at heq
      have hc : c = t₂ := (List.cons.injEq _ _ _ _ ▸ heq).1
      have hrest : pre₁' ++ t₁ :: post₁ = post₂ :=
        (List.cons.injEq _ _ _ _ ▸ heq).2
      have h1 : loads t₂ ≤ loads t₁ := by
        refine hpost₂ t₁ ?_
        rw [← hrest]
        exact List.mem_append_right _ (List.mem_cons_self _ _)
      have h2 : loads t₁ < loads t₂ := by
        have := hpre₁ c (List.mem_cons_self _ _)
        rwa [hc] at this
      exact absurd h1 (not_le.mpr h2)
    | cons c' pre₂' =>
      simp only [List.cons_append] at heq
      have hrest : pre₁' ++ t₁ :: post₁ = pre₂' ++ t₂ :: post₂ :=
        (List.cons.injEq _ _ _ _ ▸ heq).2
      exact ih pre₂' post₁ post₂ t₁ t₂ hrest
        (fun b hb => hpre₁ b (List.mem_cons_of_mem _ hb)) hpost₁
        (fun b hb => hpre₂ b (List.mem_cons_of_mem _ hb)) hpost₂

/-- The source's strict-`<` scan equals the spec's
"first moderator attaining the minimum load". -/
theorem pickTarget_eq_specPickMod (admins : List String)
    (loads : String → Nat) :
    pickTarget admins loads = specPickMod admins loads := by
  cases admins with
  | nil => simp [pickTarget, specPickMod]
  | cons a rest =>
    obtain ⟨pre, post, heq, hpre, hpost⟩ := pickFrom_split loads rest a
    set t := pickFrom a (loads a) rest loads with ht
    have hmin : ∀ b ∈ a :: rest, loads t ≤ loads b := by
      intro b hb
      rw [heq] at hb
      rcases List.mem_append.mp hb with hb | hb
      · exact le_of_lt (hpre b hb)
      · rcases List.mem_cons.mp hb with rfl | hb
        · exact le_rfl
        · exact hpost b hb
    have hmem : t ∈ a :: rest := by
      rw [heq]
      exact List.mem_append_right _ (List.mem_cons_self _ _)
    have hsome :
        ((a :: rest).find? fun m =>
          (a :: rest).all fun b => decide (loads m ≤ loads b)).isSome := by
      rw [List.find?_isSome]
      exact ⟨t, hmem, by
        rw [List.all_eq_true]
        intro b hb
        exact decide_eq_true (hmin b hb)⟩
    obtain ⟨t', ht'⟩ := Option.isSome_iff_exists.mp hsome
    obtain ⟨pre', post', heq', hpre', ht'P⟩ := find?_split _ _ _ ht'
    have hmin' : ∀ b ∈ a :: rest, loads t' ≤ loads b := by
      intro b hb
      have := (List.all_eq_true.mp ht'P) b hb
      exact of_decide_eq_true this
    have hpre'' : ∀ b ∈ pre', loads t' < loads b := by
      intro b hb
      have hbF := hpre' b hb
      have hnot : ¬ ∀ c ∈ a :: rest, loads b ≤ loads c := by
        intro hall
        have hT : ((a :: rest).all fun c => decide (loads b ≤ loads c)) = true :=
          List.all_eq_true.mpr fun c hc => decide_eq_true (hall c hc)
        rw [hT] at hbF
        exact Bool.noConfusion hbF
      push_neg at hnot
      obtain ⟨c, hc, hlt⟩ := hnot
      exact lt_of_le_of_lt (hmin' c hc) hlt
    have hpost'' : ∀ b ∈ post', loads t' ≤ loads b := by
      intro b hb
      refine hmin' b ?_
      rw [heq']
      exact List.mem_append_right _ (List.mem_cons_of_mem _ hb)
    have hT : pickTarget (a :: rest) loads = some t := rfl
    have : t = t' :=
      split_unique loads pre pre' post post' t t' (heq.symm.trans heq')
        hpre hpost hpre'' hpost''
    rw [hT, this]
    exact ht'.symm

theorem pickTarget_mem (admins : List String) (loads : String → Nat)
    (t : String) (h : pickTarget admins loads = some t) : t ∈ admins := by
  cases admins with
  | nil => simp [pickTarget] at h
  | cons a rest =>
    simp only [pickTarget, Option.some.injEq] at h
    rw [← h]
    exact pickFrom_mem loads rest a (loads a)

theorem pickTarget_le (admins : List String) (loads : String → Nat)
    (t : String) (h : pickTarget admins loads = some t) :
    ∀ b ∈ admins, loads t ≤ loads b := by
  cases admins with
  | nil => simp [pickTarget] at h
  | cons a rest =>
    simp only [pickTarget, Option.some.injEq] at h
    subst h
    obtain ⟨pre, post, heq, hpre, hpost⟩ := pickFrom_split loads rest a
    intro b hb
    rw [heq] at hb
    rcases List.mem_append.mp hb with hb | hb
    · exact le_of_lt (hpre b hb)
    · rcases List.mem_cons.mp hb with rfl | hb
      · exact le_rfl
      · exact hpost b hb

theorem pickTarget_isSome_of_ne_nil (admins : List String)
    (loads : String → Nat) (hne : admins ≠ []) :
    ∃ t, pickTarget admins loads = some t := by
  cases admins with
  | nil => exact absurd rfl hne
  | cons a rest => exact ⟨_, rfl⟩

/-! ## Lemmas: the full balancing pass -/

theorem distributeList_eq_specAssignList (admins : List String) (now : Nat)
    (hne : admins ≠ []) (hadm : "" ∉ admins) :
    ∀ (items : List PendingItem) (loads : String → Nat),
      (∀ i ∈ items, i.lockedBy ≠ some "") →
      (distributeList admins now items loads).1 =
        specAssignList admins now items loads := by
  intro items
  induction items with
  | nil => intro loads _; simp [distributeList, specAssignList]
  | cons item rest ih =>
    intro loads hclean
    have hcleanRest : ∀ i ∈ rest, i.lockedBy ≠ some "" :=
      fun i hi => hclean i (List.mem_cons_of_mem _ hi)
    obtain ⟨t, hT⟩ := pickTarget_isSome_of_ne_nil admins loads hne
    have htne : t ≠ "" := fun h => hadm (h ▸ pickTarget_mem admins loads t hT)
    cases hlk : item.lockedBy with
    | none =>
      have hDI : distributeItem admins now loads item =
          ({ item with lockedBy := some t, lockedAt := some now },
           fun a => if a = t then loads a + 1 else loads a) := by
        simp [distributeItem, hlk, ownerFalsy, hT, htne]
      have hSP : specPickMod admins loads = some t := by
        rw [← pickTarget_eq_specPickMod]; exact hT
      simp only [distributeList, hDI, specAssignList, hlk, if_pos rfl, hSP]
      exact congrArg _ (ih _ hcleanRest)
    | some s =>
      have hs : ownerFalsy item.lockedBy = false := by
        have hne' : s ≠ "" := by
          intro h
          exact hclean item (List.mem_cons_self _ _) (by rw [hlk, h])
        simp [ownerFalsy, hlk, hne']
      have hDI : distributeItem admins now loads item = (item, loads) := by
        simp [distributeItem, hs]
      simp only [distributeList, hDI, specAssignList, hlk]
      rw [if_neg (by simp)]
      exact congrArg _ (ih loads hcleanRest)

theorem computeLoads_eq_countOwned (pending : List PendingItem)
    (hclean : ∀ i ∈ pending, i.lockedBy ≠ some "") :
    computeLoads pending = countOwned pending := by
  funext a
  by_cases h : a = ""
  · subst h
    have : countOwned pending "" = 0 := by
      rw [countOwned, List.length_eq_zero, List.filter_eq_nil_iff]
      intro i hi
      simpa using hclean i hi
    simp [computeLoads, this]
  · simp [computeLoads, h]

theorem countOwned_cons (i : PendingItem) (l : List PendingItem)
    (a : String) :
    countOwned (i :: l) a =
      (if i.lockedBy = some a then 1 else 0) + countOwned l a := by
  by_cases h : i.lockedBy = some a
  · simp [countOwned, List.filter_cons, h, Nat.add_comm]
  · simp [countOwned, List.filter_cons, h]

theorem balanced_bump (admins : List String) (loads : String → Nat)
    (t : String) (htmem : t ∈ admins)
    (hmin : ∀ b ∈ admins, loads t ≤ loads b)
    (hb : Balanced admins loads) :
    Balanced admins (fun a => if a = t then loads a + 1 else loads a) := by
  intro a ha b hbm
  dsimp only
  by_cases hat : a = t
  · rw [if_pos hat]
    by_cases hbt : b = t
    · rw [if_pos hbt, hat, hbt]
      omega
    · rw [if_neg hbt, hat]
      have := hmin b hbm
      omega
  · rw [if_neg hat]
    by_cases hbt : b = t
    · rw [if_pos hbt, hbt]
      have := hb a ha t htmem
      omega
    · rw [if_neg hbt]
      exact hb a ha b hbm

theorem distributeList_balanced (admins : List String) (now : Nat) :
    ∀ (items : List PendingItem) (loads : String → Nat),
      Balanced admins loads →
      Balanced admins (distributeList admins now items loads).2 := by
  intro items
  induction items with
  | nil => intro loads h; simpa [distributeList] using h
  | cons item rest ih =>
    intro loads hbal
    cases hlk : ownerFalsy item.lockedBy with
    | false =>
      have hDI : distributeItem admins now loads item = (item, loads) := by
        simp [distributeItem, hlk]
      simp only [distributeList, hDI]
      exact ih loads hbal
    | true =>
      cases hT : pickTarget admins loads with
      | none =>
        have hDI : distributeItem admins now loads item = (item, loads) := by
          simp [distributeItem, hlk, hT]
        simp only [distributeList, hDI]
        exact ih loads hbal
      | some t =>
        by_cases htne : t = ""
        · have hDI : distributeItem admins now loads item = (item, loads) := by
            simp [distributeItem, hlk, hT, htne]
          simp only [distributeList, hDI]
          exact ih loads hbal
        · have hDI : distributeItem admins now loads item =
              ({ item with lockedBy := some t, lockedAt := some now },
               fun a => if a = t then loads a + 1 else loads a) := by
            simp [distributeItem, hlk, hT, htne]
          simp only [distributeList, hDI]
          exact ih _ (balanced_bump admins loads t
            (pickTarget_mem admins loads t hT)
            (pickTarget_le admins loads t hT) hbal)

theorem distributeList_count (admins : List String) (now : Nat) :
    ∀ (items : List PendingItem) (loads : String → Nat),
      (∀ i ∈ items, i.lockedBy ≠ some "") → ∀ a,
      countOwned (distributeList admins now items loads).1 a + loads a =
        countOwned items a + (distributeList admins now items loads).2 a := by
  intro items
  induction items with
  | nil => intro loads _ a; simp [distributeList, countOwned]
  | cons item rest ih =>
    intro loads hclean a
    have hcleanRest : ∀ i ∈ rest, i.lockedBy ≠ some "" :=
      fun i hi => hclean i (List.mem_cons_of_mem _ hi)
    cases hlk : item.lockedBy with
    | none =>
      cases hT : pickTarget admins loads with
      | none =>
        have hDI : distributeItem admins now loads item = (item, loads) := by
          simp [distributeItem, hlk, ownerFalsy, hT]
        simp only [distributeList, hDI]
        have hIH := ih loads hcleanRest a
        rw [countOwned_cons, countOwned_cons, hlk]
        simp only [reduceCtorEq, if_false]
        omega
      | some t =>
        by_cases htne : t = ""
        · have hDI : distributeItem admins now loads item = (item, loads) := by
            simp [distributeItem, hlk, ownerFalsy, hT, htne]
          simp only [distributeList, hDI]
          have hIH := ih loads hcleanRest a
          rw [countOwned_cons, countOwned_cons, hlk]
          simp only [reduceCtorEq, if_false]
          omega
        · have hDI : distributeItem admins now loads item =
              ({ item with lockedBy := some t, lockedAt := some now },
               fun x => if x = t then loads x + 1 else loads x) := by
            simp [distributeItem, hlk, ownerFalsy, hT, htne]
          simp only [distributeList, hDI]
          have hIH :=
            ih (fun x => if x = t then loads x + 1 else loads x) hcleanRest a
          rw [countOwned_cons, countOwned_cons, hlk]
          simp only [reduceCtorEq, if_false, Option.some.injEq]
          by_cases hat : a = t
          · have hta : t = a := hat.symm
            rw [if_pos hat] at hIH
            rw [if_pos hta]
            omega
          · have hta : ¬ (t = a) := fun h => hat h.symm
            rw [if_neg hat] at hIH
            rw [if_neg hta]
            omega
    | some s =>
      have hs2 : ownerFalsy item.lockedBy = false := by
        have hne' : s ≠ "" := by
          intro h2
          exact hclean item (List.mem_cons_self _ _) (by rw [hlk, h2])
        simp [ownerFalsy, hlk, hne']
      have hDI : distributeItem admins now loads item = (item, loads) := by
        simp [distributeItem, hs2]
      simp only [distributeList, hDI]
      have hIH := ih loads hcleanRest a
      rw [countOwned_cons, countOwned_cons]
      omega

theorem distributeItem_skip (admins : List String) (now : Nat)
    (loads : String → Nat) (item : PendingItem)
    (h : ownerFalsy item.lockedBy = false) :
    distributeItem admins now loads item = (item, loads) := by
  simp [distributeItem, h]

theorem distributeList_length (admins : List String) (now : Nat) :
    ∀ (items : List PendingItem) (loads : String → Nat),
      (distributeList admins now items loads).1.length = items.length := by
  intro items
  induction items with
  | nil => intro loads; simp [distributeList]
  | cons item rest ih => intro loads; simp [distributeList, ih]

theorem distributeNewItems_length (admins : List String) (now : Nat)
    (pending : List PendingItem) :
    (distributeNewItems admins now pending).length = pending.length := by
  cases admins with
  | nil => rfl
  | cons a rest => exact distributeList_length _ now pending _

/-- The pass never touches an item whose `lockedBy` is truthy: it keeps
its position, owner and timestamp. -/
theorem distributeList_get_claimed (admins : List String) (now : Nat) :
    ∀ (items : List PendingItem) (loads : String → Nat) (k : Nat)
      (hk : k < items.length)
      (hk2 : k < (distributeList admins now items loads).1.length),
      ownerFalsy ((items.get ⟨k, hk⟩).lockedBy) = false →
      (distributeList admins now items loads).1.get ⟨k, hk2⟩ =
        items.get ⟨k, hk⟩ := by
  intro items
  induction items with
  | nil => intro loads k hk; exact absurd hk (Nat.not_lt_zero k)
  | cons item rest ih =>
    intro loads k hk hk2 hcl
    cases k with
    | zero =>
      have hcl0 : ownerFalsy item.lockedBy = false := by simpa using hcl
      have hDI := distributeItem_skip admins now loads item hcl0
      simp [distributeList, hDI]
    | succ k =>
      have hk' : k < rest.length := by simpa using hk
      have hcl' :
          ownerFalsy ((rest.get ⟨k, hk'⟩).lockedBy) = false := by
        simpa using hcl
      have hk2' :
          k < (distributeList admins now rest
            (distributeItem admins now loads item).2).1.length := by
        rw [distributeList_length]
        exact hk'
      have := ih (distributeItem admins now loads item).2 k hk' hk2' hcl'
      simpa [distributeList] using this

/-- Every owner in the output of the pass either already owned in the
input or is one of the connected admins. -/
theorem distributeList_owner_mem (admins : List String) (now : Nat) :
    ∀ (items : List PendingItem) (loads : String → Nat),
      ∀ i ∈ (distributeList admins now items loads).1, ∀ m,
        i.lockedBy = some m →
        (∃ j ∈ items, j.lockedBy = some m) ∨ m ∈ admins := by
  intro items
  induction items with
  | nil => intro loads i hi; simp [distributeList] at hi
  | cons item rest ih =>
    intro loads i hi m hm
    simp only [distributeList] at hi
    rcases List.mem_cons.mp hi with rfl | hi'
    · by_cases hf : ownerFalsy item.lockedBy
      · cases hT : pickTarget admins loads with
        | none =>
          have hDI : distributeItem admins now loads item = (item, loads) := by
            simp [distributeItem, hf, hT]
          rw [hDI] at hm
          exact Or.inl ⟨item, List.mem_cons_self _ _, hm⟩
        | some t =>
          by_cases ht : t = ""
          · have hDI : distributeItem admins now loads item = (item, loads) := by
              simp [distributeItem, hf, hT, ht]
            rw [hDI] at hm
            exact Or.inl ⟨item, List.mem_cons_self _ _, hm⟩
          · have hDI : distributeItem admins now loads item =
                ({ item with lockedBy := some t, lockedAt := some now },
                 fun x => if x = t then loads x + 1 else loads x) := by
              simp [distributeItem, hf, hT, ht]
            rw [hDI] at hm
            simp only [Option.some.injEq] at hm
            exact Or.inr (hm ▸ pickTarget_mem admins loads t hT)
      · have hDI := distributeItem_skip admins now loads item
          (Bool.eq_false_iff.mpr hf)
        rw [hDI] at hm
        exact Or.inl ⟨item, List.mem_cons_self _ _, hm⟩
    · rcases ih _ i hi' m hm with ⟨j, hj, hjm⟩ | hadm
      · exact Or.inl ⟨j, List.mem_cons_of_mem _ hj, hjm⟩
      · exact Or.inr hadm

theorem distributeNewItems_owner_mem (admins : List String) (now : Nat)
    (pending : List PendingItem) :
    ∀ i ∈ distributeNewItems admins now pending, ∀ m,
      i.lockedBy = some m →
      (∃ j ∈ pending, j.lockedBy = some m) ∨ m ∈ admins := by
  cases admins with
  | nil =>
    intro i hi m hm
    exact Or.inl ⟨i, hi, hm⟩
  | cons a rest =>
    intro i hi m hm
    exact distributeList_owner_mem _ now pending _ i hi m hm

theorem releaseOwnedBy_owner (d : String) (pending : List PendingItem) :
    ∀ j ∈ releaseOwnedBy d pending, ∀ m, j.lockedBy = some m →
      m ≠ d ∧ ∃ j2 ∈ pending, j2.lockedBy = some m := by
  intro j hj m hm
  simp only [releaseOwnedBy] at hj
  obtain ⟨j0, hj0, hmap⟩ := List.mem_map.mp hj
  by_cases h : j0.lockedBy = some d
  · rw [if_pos h] at hmap
    rw [← hmap] at hm
    simp at hm
  · rw [if_neg h] at hmap
    subst hmap
    refine ⟨?_, j0, hj0, hm⟩
    intro he
    exact h (he ▸ hm)

theorem step_preserves_owners {s t : ServerState} (h : Step s t)
    (hs : OwnersConnected s) : OwnersConnected t := by
  cases h with
  | intake blobName now s =>
    intro i hi m hm
    simp only [intakeStep] at hi
    rcases distributeNewItems_owner_mem s.adminIds now _ i hi m hm with
      ⟨j, hj, hjm⟩ | hadm
    · rcases List.mem_append.mp hj with hj | hj
      · exact hs j hj m hjm
      · simp only [List.mem_singleton] at hj
        rw [hj] at hjm
        simp at hjm
    · exact hadm
  | connect adminId now s =>
    intro i hi m hm
    simp only [connectStep] at hi
    rcases distributeNewItems_owner_mem _ now _ i hi m hm with
      ⟨j, hj, hjm⟩ | hadm
    · exact List.mem_append_left _ (hs j hj m hjm)
    · exact hadm
  | disconnect adminId now s =>
    intro i hi m hm
    simp only [disconnectStep] at hi
    rcases distributeNewItems_owner_mem _ now _ i hi m hm with
      ⟨j, hj, hjm⟩ | hadm
    · obtain ⟨hne, j2, hj2, hj2m⟩ :=
        releaseOwnedBy_owner adminId s.pending j hj m hjm
      exact (List.mem_erase_of_ne hne).mpr (hs j2 hj2 m hj2m)
    · exact hadm
  | resolve filename s =>
    intro i hi m hm
    simp only [resolveStep, removePending] at hi
    exact hs i (List.mem_of_mem_filter hi) m hm
  | rebalance now s =>
    intro i hi m hm
    simp only [rebalanceStep] at hi
    rcases distributeNewItems_owner_mem _ now _ i hi m hm with
      ⟨j, hj, hjm⟩ | hadm
    · exact hs j hj m hjm
    · exact hadm

theorem reachable_owners (s : ServerState) (h : Reachable s) :
    OwnersConnected s := by
  induction h with
  | init => intro i hi m hm; simp [initState] at hi
  | step _ hstep ih => exact step_preserves_owners hstep ih

/-! ## Claim theorems -/

/-- C1: in every state reachable via intake, moderator identification,
moderator disconnect, rebalance and approve/deny events, every pending
item whose `lockedBy` is not `none` names a currently-connected admin
session; moreover the disconnect handler sets every item owned by the
departing admin back to `none` (second conjunct) before running the
balancing pass (third conjunct: the disconnect transition is, by
definition, the balancing pass applied to the released registry). -/
theorem owners_always_connected :
    (∀ s : ServerState, Reachable s →
      ∀ i ∈ s.pending, ∀ m, i.lockedBy = some m → m ∈ s.adminIds) ∧
    (∀ (adminId : String) (pending : List PendingItem),
      ∀ j ∈ releaseOwnedBy adminId pending, j.lockedBy ≠ some adminId) ∧
    (∀ (adminId : String) (now : Nat) (s : ServerState),
      (disconnectStep adminId now s).pending =
        distributeNewItems (s.adminIds.erase adminId) now
          (releaseOwnedBy adminId s.pending)) := by
  refine ⟨fun s h => reachable_owners s h, ?_, fun _ _ _ => rfl⟩
  intro adminId pending j hj hcon
  exact (releaseOwnedBy_owner adminId pending j hj adminId hcon).1 rfl

theorem owners_always_connected_witness :
    "admin_a" ∈ (connectStep "admin_a" 0 (intakeStep "x.jpg" 0 initState)).adminIds :=
  owners_always_connected.1 _
    (Reachable.step (Reachable.step Reachable.init (Step.intake "x.jpg" 0 initState))
      (Step.connect "admin_a" 0 _))
    ⟨"x.jpg", some "admin_a", some 0⟩ (by decide) "admin_a" (by decide)

/-- C2: a balancing pass over an all-unclaimed registry and a non-empty
admin list leaves the per-admin owned-item counts within 1 of each other
(the pairwise form of max load - min load ≤ 1). -/
theorem rebalance_fairness (admins : List String) (now : Nat)
    (pending : List PendingItem) (hne : admins ≠ [])
    (hunclaimed : ∀ i ∈ pending, i.lockedBy = none) :
    ∀ a ∈ admins, ∀ b ∈ admins,
      countOwned (distributeNewItems admins now pending) a ≤
        countOwned (distributeNewItems admins now pending) b + 1 := by
  cases admins with
  | nil => exact absurd rfl hne
  | cons a0 rest0 =>
    intro a ha b hb
    have hcnt : ∀ x, countOwned pending x = 0 := by
      intro x
      rw [countOwned, List.length_eq_zero, List.filter_eq_nil_iff]
      intro i hi
      simp [hunclaimed i hi]
    have hzero : computeLoads pending = fun _ => 0 := by
      funext x
      by_cases hx : x = "" <;> simp [computeLoads, hx, hcnt]
    have hclean : ∀ i ∈ pending, i.lockedBy ≠ some "" := by
      intro i hi
      simp [hunclaimed i hi]
    have hbal0 : Balanced (a0 :: rest0) (computeLoads pending) := by
      rw [hzero]
      intro x _ y _
      simp
    have hbalF :=
      distributeList_balanced (a0 :: rest0) now pending
        (computeLoads pending) hbal0 a ha b hb
    have hcountA :=
      distributeList_count (a0 :: rest0) now pending
        (computeLoads pending) hclean a
    have hcountB :=
      distributeList_count (a0 :: rest0) now pending
        (computeLoads pending) hclean b
    have hCa : computeLoads pending a = 0 := congrFun hzero a
    have hCb : computeLoads pending b = 0 := congrFun hzero b
    have hD : distributeNewItems (a0 :: rest0) now pending =
        (distributeList (a0 :: rest0) now pending (computeLoads pending)).1 :=
      rfl
    rw [hD]
    have h0a := hcnt a
    have h0b := hcnt b
    omega

theorem rebalance_fairness_witness :
    countOwned (distributeNewItems ["admin_a", "admin_b"] 3
      [⟨"x.jpg", none, none⟩, ⟨"y.jpg", none, none⟩,
       ⟨"z.jpg", none, none⟩]) "admin_a" ≤
    countOwned (distributeNewItems ["admin_a", "admin_b"] 3
      [⟨"x.jpg", none, none⟩, ⟨"y.jpg", none, none⟩,
       ⟨"z.jpg", none, none⟩]) "admin_b" + 1 :=
  rebalance_fairness ["admin_a", "admin_b"] 3
    [⟨"x.jpg", none, none⟩, ⟨"y.jpg", none, none⟩, ⟨"z.jpg", none, none⟩]
    (by decide) (by decide) "admin_a" (by decide) "admin_b" (by decide)

/-- C3: over clean states (owners are generated admin ids, never the
empty string, and the empty string is not a connected id), the source's
balancing pass coincides with the spec's transcription: unclaimed items
in FIFO intake order, each assigned to the first (earliest-registered)
moderator of minimum current load, loads updated after each assignment —
hence the assignment is a deterministic function of the registry and the
registration-ordered connected-admin list. -/
theorem rebalance_refines_spec (admins : List String) (now : Nat)
    (pending : List PendingItem)
    (hclean : ∀ i ∈ pending, i.lockedBy ≠ some "")
    (hadm : "" ∉ admins) :
    distributeNewItems admins now pending = specRebalance admins now pending := by
  cases admins with
  | nil => rfl
  | cons a0 rest0 =>
    have hne : (a0 :: rest0) ≠ ([] : List String) := by simp
    have h :=
      distributeList_eq_specAssignList (a0 :: rest0) now hne hadm pending
        (computeLoads pending) hclean
    have hD : distributeNewItems (a0 :: rest0) now pending =
        (distributeList (a0 :: rest0) now pending (computeLoads pending)).1 :=
      rfl
    rw [hD, h, computeLoads_eq_countOwned pending hclean]
    rfl

theorem rebalance_refines_spec_witness :
    distributeNewItems ["admin_a", "admin_b"] 5
      [⟨"x.jpg", none, none⟩, ⟨"y.jpg", some "admin_a", some 1⟩] =
    specRebalance ["admin_a", "admin_b"] 5
      [⟨"x.jpg", none, none⟩, ⟨"y.jpg", some "admin_a", some 1⟩] :=
  rebalance_refines_spec ["admin_a", "admin_b"] 5
    [⟨"x.jpg", none, none⟩, ⟨"y.jpg", some "admin_a", some 1⟩]
    (by decide) (by decide)

/-- C4: a balancing pass never touches an already-assigned item — its
owner and assignment timestamp are unchanged (the item is returned
verbatim at its position). -/
theorem rebalance_frame (admins : List String) (now : Nat)
    (pending : List PendingItem) (k : Nat) (hk : k < pending.length)
    (m : String) (hm : (pending.get ⟨k, hk⟩).lockedBy = some m)
    (hmne : m ≠ "")
    (hk2 : k < (distributeNewItems admins now pending).length) :
    (distributeNewItems admins now pending).get ⟨k, hk2⟩ =
      pending.get ⟨k, hk⟩ := by
  cases admins with
  | nil => rfl
  | cons a0 rest0 =>
    have hcl : ownerFalsy ((pending.get ⟨k, hk⟩).lockedBy) = false := by
      rw [hm]
      simp [ownerFalsy, hmne]
    exact distributeList_get_claimed (a0 :: rest0) now pending
      (computeLoads pending) k hk hk2 hcl

theorem rebalance_frame_witness :
    (distributeNewItems ["admin_a", "admin_b"] 9
        [⟨"x.jpg", some "admin_a", some 1⟩,
         ⟨"y.jpg", some "admin_a", some 2⟩]).get ⟨0, by decide⟩ =
      [(⟨"x.jpg", some "admin_a", some 1⟩ : PendingItem),
       ⟨"y.jpg", some "admin_a", some 2⟩].get ⟨0, by decide⟩ ∧
    distributeNewItems ["admin_a", "admin_b"] 9
        [⟨"x.jpg", some "admin_a", some 1⟩,
         ⟨"y.jpg", some "admin_a", some 2⟩] =
      [⟨"x.jpg", some "admin_a", some 1⟩,
       ⟨"y.jpg", some "admin_a", some 2⟩] ∧
    countOwned (distributeNewItems ["admin_a", "admin_b"] 9
        [⟨"x.jpg", some "admin_a", some 1⟩,
         ⟨"y.jpg", some "admin_a", some 2⟩]) "admin_a" = 2 ∧
    countOwned (distributeNewItems ["admin_a", "admin_b"] 9
        [⟨"x.jpg", some "admin_a", some 1⟩,
         ⟨"y.jpg", some "admin_a", some 2⟩]) "admin_b" = 0 :=
  ⟨rebalance_frame ["admin_a", "admin_b"] 9
      [⟨"x.jpg", some "admin_a", some 1⟩, ⟨"y.jpg", some "admin_a", some 2⟩]
      0 (by decide) "admin_a" (by decide) (by decide) (by decide),
   by decide, by decide, by decide⟩

/-- C5: when approve fails at the storage boundary (missing source blob,
or an exhausted copy existence-poll), the handler answers with a 500
error and the in-memory pending registry is returned unchanged — the
item keeps its current owner, so the resolution is retryable. -/
theorem approve_failure_preserves_registry (env : ApproveEnv)
    (pending : List PendingItem) (p : String) (hp : p ≠ "")
    (hfail : env.imageExists = false ∨
      waitForBlobExistence env.imageCopyVisible = none ∨
      env.textExists = false ∨
      waitForBlobExistence env.textCopyVisible = none) :
    (∃ msg, (approveImage env pending (some p)).1 =
      HttpResult.serverError msg) ∧
    (approveImage env pending (some p)).2 = pending := by
  by_cases h1 : env.imageExists
  · cases hw1 : waitForBlobExistence env.imageCopyVisible with
    | none =>
      refine ⟨⟨"Error approving image: Image copy did not complete in time.",
        ?_⟩, ?_⟩ <;> simp [approveImage, hp, h1, hw1]
    | some n1 =>
      by_cases h2 : env.textExists
      · cases hw2 : waitForBlobExistence env.textCopyVisible with
        | none =>
          refine ⟨⟨"Error approving image: Text file copy did not complete in time.",
            ?_⟩, ?_⟩ <;> simp [approveImage, hp, h1, hw1, h2, hw2]
        | some n2 =>
          rcases hfail with h | h | h | h
          · rw [h1] at h; exact absurd h (by simp)
          · rw [hw1] at h; exact absurd h (by simp)
          · rw [h2] at h; exact absurd h (by simp)
          · rw [hw2] at h; exact absurd h (by simp)
      · refine ⟨⟨"Error approving image: text file not found in pending.",
          ?_⟩, ?_⟩ <;> simp [approveImage, hp, h1, hw1, h2]
  · refine ⟨⟨"Error approving image: image not found in pending.",
      ?_⟩, ?_⟩ <;> simp [approveImage, hp, h1]

theorem approve_failure_preserves_registry_witness :
    (∃ msg,
      (approveImage ⟨false, fun _ => false, true, fun _ => true⟩
        [⟨"x.jpg", some "admin_a", some 1⟩] (some "x.jpg")).1 =
        HttpResult.serverError msg) ∧
    (approveImage ⟨false, fun _ => false, true, fun _ => true⟩
      [⟨"x.jpg", some "admin_a", some 1⟩] (some "x.jpg")).2 =
      [⟨"x.jpg", some "admin_a", some 1⟩] :=
  approve_failure_preserves_registry
    ⟨false, fun _ => false, true, fun _ => true⟩
    [⟨"x.jpg", some "admin_a", some 1⟩] "x.jpg" (by decide) (Or.inl rfl)

/-- C6: removal from the pending registry is idempotent — a second
`remove` of the same name is a no-op, and removing an absent name leaves
the registry unchanged (and raises no error: `removePending` is total). -/
theorem remove_idempotent :
    (∀ (pending : List PendingItem) (f : String),
      removePending (removePending pending f) f = removePending pending f) ∧
    (∀ (pending : List PendingItem) (f : String),
      (∀ i ∈ pending, i.blobName ≠ f) → removePending pending f = pending) := by
  constructor
  · intro pending f
    apply List.filter_eq_self.mpr
    intro i hi
    have hi2 : i ∈ List.filter (fun item => decide (item.blobName ≠ f)) pending := hi
    exact (List.mem_filter.mp hi2).2
  · intro pending f h
    apply List.filter_eq_self.mpr
    intro i hi
    simpa using h i hi

theorem remove_idempotent_witness :
    removePending (removePending [⟨"x.jpg", none, none⟩] "x.jpg") "x.jpg" =
      removePending [⟨"x.jpg", none, none⟩] "x.jpg" ∧
    removePending [⟨"y.jpg", none, none⟩] "x.jpg" =
      [⟨"y.jpg", none, none⟩] :=
  ⟨remove_idempotent.1 [⟨"x.jpg", none, none⟩] "x.jpg",
   remove_idempotent.2 [⟨"y.jpg", none, none⟩] "x.jpg" (by decide)⟩

theorem waitAux_some (visible : Nat → Bool) :
    ∀ (fuel attempts n : Nat), waitAux visible attempts fuel = some n →
      attempts < n ∧ n ≤ attempts + fuel ∧ visible n = true ∧
        ∀ m, attempts < m → m < n → visible m = false := by
  intro fuel
  induction fuel with
  | zero => intro attempts n h; simp [waitAux] at h
  | succ fuel ih =>
    intro attempts n h
    rw [waitAux] at h
    by_cases hv : visible (attempts + 1)
    · rw [if_pos hv] at h
      injection h with h
      subst h
      exact ⟨by omega, by omega, hv, by intro m h1 h2; omega⟩
    · rw [if_neg hv] at h
      obtain ⟨h1, h2, h3, h4⟩ := ih (attempts + 1) n h
      refine ⟨by omega, by omega, h3, ?_⟩
      intro m hm1 hm2
      by_cases hme : m = attempts + 1
      · rw [hme]
        exact Bool.eq_false_iff.mpr hv
      · exact h4 m (by omega) hm2

theorem waitAux_none (visible : Nat → Bool) :
    ∀ (fuel attempts : Nat), waitAux visible attempts fuel = none ↔
      ∀ m, attempts < m → m ≤ attempts + fuel → visible m = false := by
  intro fuel
  induction fuel with
  | zero =>
    intro attempts
    simp only [waitAux]
    constructor
    · intro _ m h1 h2
      exact absurd h2 (by omega)
    · intro _
      trivial
  | succ fuel ih =>
    intro attempts
    rw [waitAux]
    by_cases hv : visible (attempts + 1)
    · rw [if_pos hv]
      constructor
      · intro h
        exact absurd h (by simp)
      · intro h
        have := h (attempts + 1) (by omega) (by omega)
        rw [hv] at this
        exact absurd this (by simp)
    · rw [if_neg hv]
      rw [ih (attempts + 1)]
      constructor
      · intro h m h1 h2
        by_cases hme : m = attempts + 1
        · rw [hme]
          exact Bool.eq_false_iff.mpr hv
        · exact h m (by omega) (by omega)
      · intro h m h1 h2
        exact h m (by omega) (by omega)

/-- C7: the existence poll makes at most 30 attempts (`maxAttempts`) at a
fixed 1000 ms interval, returns as soon as an attempt sees the blob
(every earlier attempt having failed), and after 30 unsuccessful
attempts gives `none` — the thrown error that fails the HTTP request —
rather than polling forever. -/
theorem poll_bounded :
    (∀ (visible : Nat → Bool) (n : Nat),
      waitForBlobExistence visible = some n →
      1 ≤ n ∧ n ≤ maxAttempts ∧ visible n = true ∧
        ∀ m, 1 ≤ m → m < n → visible m = false) ∧
    (∀ visible : Nat → Bool,
      waitForBlobExistence visible = none ↔
        ∀ m, 1 ≤ m → m ≤ maxAttempts → visible m = false) ∧
    maxAttempts = 30 ∧ interval = 1000 := by
  refine ⟨?_, ?_, rfl, rfl⟩
  · intro visible n h
    obtain ⟨h1, h2, h3, h4⟩ := waitAux_some visible maxAttempts 0 n h
    exact ⟨by omega, by omega, h3, fun m hm1 hm2 => h4 m (by omega) hm2⟩
  · intro visible
    rw [waitForBlobExistence, waitAux_none]
    constructor
    · intro h m h1 h2
      exact h m (by omega) (by omega)
    · intro h m h1 h2
      exact h m (by omega) (by omega)

theorem poll_bounded_witness :
    waitForBlobExistence (fun n => n == 3) = some 3 ∧
    (fun n : Nat => n == 3) 3 = true ∧
    waitForBlobExistence (fun _ => false) = none :=
  ⟨by decide,
   (poll_bounded.1 (fun n => n == 3) 3 (by decide)).2.2.1,
   (poll_bounded.2.1 (fun _ => false)).mpr fun _ _ _ => rfl⟩

/-- C8 counterexample: on moderator identification the first message the
first-variant handler sends has `type` field `"initAdminId"` (carrying
field `adminId`), and no message it sends has `type` `"assignedId"` — so
the claimed `{type:"assignedId", id}` shape is not what the code sends. -/
theorem admin_id_message_counterexample :
    ((handleMessageV1 0 "admin_x1y2z3abc" 5 [] InboundMsg.admin
        initState).2.map msgTypeField) = [some "initAdminId", none] ∧
    "initAdminId" ≠ "assignedId" := by
  constructor
  · decide
  · decide

/-- C8 amended: when a connection identifies itself as a moderator, the
(first-variant) handler registers the generated id and sends that
connection `{type:"initAdminId", adminId}` — not `assignedId`/`id` —
followed by (hence before) the pending-item push; the second source
variant sends no id message at all. -/
theorem admin_id_message_first (c : Nat) (adminId : String) (now : Nat)
    (approvedImages : List String) (s : ServerState) :
    (handleMessageV1 c adminId now approvedImages InboundMsg.admin s).2 =
      [OutboundMsg.initAdminId adminId,
       sendPendingImagesPayload (some adminId)
         (connectStep adminId now s).pending] ∧
    msgTypeField (OutboundMsg.initAdminId adminId) = some "initAdminId" ∧
    (handleMessageV1 c adminId now approvedImages InboundMsg.admin s).1 =
      connectStep adminId now s ∧
    (handleMessageV2 c adminId now approvedImages InboundMsg.admin s).2 =
      [sendPendingImagesPayload (some adminId)
        (connectStep adminId now s).pending] :=
  ⟨rfl, rfl, rfl, rfl⟩

/-- C9 counterexample: in the first handler variant a parsed message with
an unrecognized `type` is not ignored — it registers the sender in the
regular-client set, changing the session state. -/
theorem unknown_message_counterexample :
    (handleMessageV1 0 "admin_x" 5 [] (InboundMsg.other "bogus")
        initState).1 ≠ initState ∧
    (handleMessageV1 0 "admin_x" 5 [] (InboundMsg.other "bogus")
        initState).1.viewers = [0] := by
  constructor
  · decide
  · decide

/-- C9 amended: unparsable JSON is caught, logged and ignored by both
handler variants (state and traffic unchanged); the second variant also
logs-and-ignores an unknown `type`; the first variant instead treats any
unrecognized `type` as a regular-client registration — adding the
connection to the viewer set and sending it the public images — while
leaving the pending registry and admin-session state untouched. -/
theorem unknown_message_handling (c : Nat) (adminId : String) (now : Nat)
    (approved : List String) (t : String) (s : ServerState) :
    handleMessageV2 c adminId now approved (InboundMsg.other t) s =
      (s, []) ∧
    handleMessageV2 c adminId now approved InboundMsg.malformed s =
      (s, []) ∧
    handleMessageV1 c adminId now approved InboundMsg.malformed s =
      (s, []) ∧
    (handleMessageV1 c adminId now approved (InboundMsg.other t) s).1.pending =
      s.pending ∧
    (handleMessageV1 c adminId now approved (InboundMsg.other t) s).1.adminIds =
      s.adminIds ∧
    (handleMessageV1 c adminId now approved (InboundMsg.other t) s).1.viewers =
      addViewer c s.viewers ∧
    (handleMessageV1 c adminId now approved (InboundMsg.other t) s).2 =
      [OutboundMsg.images approved] :=
  ⟨rfl, rfl, rfl, rfl, rfl, rfl, rfl⟩

/-- C10: approve (when storage succeeds) and deny remove exactly the
named item from the registry, with no reference to item ownership: the
removal commutes with arbitrary reassignment of owners, and the HTTP
response never depends on the registry contents at all — so a moderator
can resolve an item assigned to a different moderator. -/
theorem resolution_owner_agnostic :
    (∀ (env : ApproveEnv) (pending : List PendingItem) (p : String),
      p ≠ "" → env.imageExists = true →
      waitForBlobExistence env.imageCopyVisible ≠ none →
      env.textExists = true →
      waitForBlobExistence env.textCopyVisible ≠ none →
      (approveImage env pending (some p)).1 =
        HttpResult.ok "Image approved successfully." ∧
      (approveImage env pending (some p)).2 =
        removePending pending (basename p)) ∧
    (∀ (pending : List PendingItem) (p : String), p ≠ "" →
      (denyImage pending (some p)).2 = removePending pending (basename p)) ∧
    (∀ (pending : List PendingItem) (f : String),
      ∀ i ∈ removePending pending f, i.blobName ≠ f) ∧
    (∀ (h : PendingItem → PendingItem),
      (∀ i, (h i).blobName = i.blobName) →
      ∀ (pending : List PendingItem) (f : String),
        removePending (pending.map h) f = (removePending pending f).map h) ∧
    (∀ (env : ApproveEnv) (p : Option String)
      (pending₁ pending₂ : List PendingItem),
      (approveImage env pending₁ p).1 = (approveImage env pending₂ p).1) := by
  refine ⟨?_, ?_, ?_, ?_, ?_⟩
  · intro env pending p hp h1 hw1 h2 hw2
    cases hv1 : waitForBlobExistence env.imageCopyVisible with
    | none => exact absurd hv1 hw1
    | some n1 =>
      cases hv2 : waitForBlobExistence env.textCopyVisible with
      | none => exact absurd hv2 hw2
      | some n2 =>
        constructor <;> simp [approveImage, hp, h1, hv1, h2, hv2]
  · intro pending p hp
    simp [denyImage, hp]
  · intro pending f i hi
    have hi2 : i ∈ List.filter (fun item => decide (item.blobName ≠ f)) pending := hi
    have := (List.mem_filter.mp hi2).2
    simpa using this
  · intro h hbn pending f
    induction pending with
    | nil => rfl
    | cons i rest ih =>
      simp only [removePending] at ih ⊢
      simp only [List.map_cons, List.filter_cons, hbn i]
      simp only [ne_eq, decide_not] at ih
      by_cases hb : i.blobName = f
      · simp [hb, ih]
      · simp [hb, ih]
  · intro env p pending₁ pending₂
    cases p with
    | none => rfl
    | some q =>
      by_cases hq : q = ""
      · simp [approveImage, hq]
      · by_cases h1 : env.imageExists
        · cases hw1 : waitForBlobExistence env.imageCopyVisible with
          | none => simp [approveImage, hq, h1, hw1]
          | some n1 =>
            by_cases h2 : env.textExists
            · cases hw2 : waitForBlobExistence env.textCopyVisible with
              | none => simp [approveImage, hq, h1, hw1, h2, hw2]
              | some n2 => simp [approveImage, hq, h1, hw1, h2, hw2]
            · simp [approveImage, hq, h1, hw1, h2]
        · simp [approveImage, hq, h1]

theorem resolution_owner_agnostic_witness :
    (approveImage ⟨true, fun _ => true, true, fun _ => true⟩
        [⟨"x.jpg", some "admin_other", some 1⟩] (some "x.jpg")).1 =
      HttpResult.ok "Image approved successfully." ∧
    (approveImage ⟨true, fun _ => true, true, fun _ => true⟩
        [⟨"x.jpg", some "admin_other", some 1⟩] (some "x.jpg")).2 =
      removePending [⟨"x.jpg", some "admin_other", some 1⟩]
        (basename "x.jpg") :=
  have h := resolution_owner_agnostic.1
    ⟨true, fun _ => true, true, fun _ => true⟩
    [⟨"x.jpg", some "admin_other", some 1⟩] "x.jpg" (by decide) rfl
    (by decide) rfl (by decide)
  ⟨h.1, h.2⟩

end SMCDublin
